import Mathlib

/-! # Branchless bit-scan generators (`include/asm-generic/bitops/gen_ffls_branchless.h`)

A shallow embedding of the macros of `gen_ffls_branchless.h`.

* A value of an unsigned C type of `x_size = sizeof(type)` bytes is a natural
  number below `2 ^ (8 * x_size)`; storing into a variable of that type reduces
  modulo `2 ^ (8 * x_size)`.
* An output type (`out_type`, `Tout`) is an `IntType`: a bit width and a
  signedness; conversion to it is `IntType.cast`, values are integers.
* Macro parameters that are integer constant expressions (`start_from`,
  `nonzero_exception`) are natural numbers, and the C operators `!`, `!!`, `&&`
  on them yield `0` or `1`.
-/

namespace GenFflsBranchless

/-! ## C operators -/

/-- The C operator `!`: `1` on zero, `0` otherwise. -/
def lnot (a : Nat) : Nat := if a = 0 then 1 else 0

/-- The C operator `&&`: `1` when both operands are nonzero, `0` otherwise. -/
def land2 (a b : Nat) : Nat := if a ≠ 0 ∧ b ≠ 0 then 1 else 0

/-- The C comparison `a > b` as an `int`: `1` or `0`. -/
def cgt (a b : Nat) : Nat := if a > b then 1 else 0

/-- Number of value bits of an unsigned type of `x_size` bytes. -/
def bitsOf (x_size : Nat) : Nat := 8 * x_size

/-- Conversion to the unsigned type of `x_size` bytes (what an assignment to a
variable of that type does). -/
def toType (x_size : Nat) (v : Nat) : Nat := v % 2 ^ bitsOf x_size

/-- The value of `~X` once converted to the unsigned type of `x_size` bytes,
for `X` a value of that type: every one of its `8 * x_size` bits flipped. -/
def bnot (x_size : Nat) (X : Nat) : Nat := 2 ^ bitsOf x_size - 1 - X % 2 ^ bitsOf x_size

/-- An integer output type: its width in bits and whether it is signed. -/
structure IntType where
  bits : Nat
  isSigned : Bool

/-- Conversion of an integer to an integer type: reduction modulo `2 ^ bits`,
into `[0, 2^bits)` for an unsigned type and `[-2^(bits-1), 2^(bits-1))` for a
signed one. -/
def IntType.cast (T : IntType) (v : Int) : Int :=
  if T.isSigned then
    (v + 2 ^ (T.bits - 1)) % 2 ^ T.bits - 2 ^ (T.bits - 1)
  else
    v % 2 ^ T.bits

/-- Largest value of an integer type. -/
def IntType.maxVal (T : IntType) : Int :=
  if T.isSigned then 2 ^ (T.bits - 1) - 1 else 2 ^ T.bits - 1

/-- The type can represent every integer of `0..n`. -/
def IntType.canHold (T : IntType) (n : Nat) : Prop := (n : Int) ≤ T.maxVal

instance (T : IntType) (n : Nat) : Decidable (T.canHold n) := by
  unfold IntType.canHold; infer_instance

/-! ## The bit isolators -/

/-- Macro `___preserve_msb_branchless(X, type, x_size, _is_nonzero)`: the value
left in `X`. Right shifts and ORs of values of the type stay in the type, so only the
closing `+=` needs the conversion back to `type`. -/
def ___preserve_msb_branchless (x_size : Nat) (X : Nat) : Nat :=
  let _is_nonzero := lnot (lnot X)
  let X := X >>> 1
  let X := X ||| (X >>> 1)
  let X := X ||| (X >>> 2)
  let X := X ||| (X >>> 4)
  let X := X ||| (X >>> (cgt x_size 1 <<< 3))
  let X := X ||| (X >>> (cgt x_size 2 <<< 4))
  let X := X ||| (X >>> (cgt x_size 4 <<< 5))
  toType x_size (X + _is_nonzero)

/-- Macro `__preserve_msb_branchless(X, type)`, with `type` given by `sizeof(type)`. -/
def __preserve_msb_branchless (type : Nat) (X : Nat) : Nat :=
  ___preserve_msb_branchless type X

/-- Macro `rounddown_pow_of_two_inplace_branchless(x)` for `x` of a type of `type`
bytes (`typeof(x)`). -/
def rounddown_pow_of_two_inplace_branchless (type : Nat) (x : Nat) : Nat :=
  __preserve_msb_branchless type x

/-- Macro `___preserve_lsb_branchless(X, type, x_size, _x_upperfilled)`: the
value left in `X`. Every `|=` of a left shift is converted back to `type`. -/
def ___preserve_lsb_branchless (x_size : Nat) (X : Nat) : Nat :=
  let X := toType x_size (X ||| (X <<< 1))
  let X := toType x_size (X ||| (X <<< 2))
  let X := toType x_size (X ||| (X <<< 4))
  let X := toType x_size (X ||| (X <<< (cgt x_size 1 <<< 3)))
  let X := toType x_size (X ||| (X <<< (cgt x_size 2 <<< 4)))
  let X := toType x_size (X ||| (X <<< (cgt x_size 4 <<< 5)))
  let _x_upperfilled := X
  let X := toType x_size (bnot x_size X + lnot (lnot _x_upperfilled))
  X &&& _x_upperfilled

/-- Macro `__preserve_lsb_branchless(X, type)`, with `type` given by `sizeof(type)`. -/
def __preserve_lsb_branchless (type : Nat) (X : Nat) : Nat :=
  ___preserve_lsb_branchless type X

/-! ## The bit locator -/

/-- The sum of the seven mask tests of `___locate_bit_branchless`, an `int`,
before the conversion to `Tout`. `in_111` is the all-ones value of `Tin`. -/
def locate_sum (Tin : Nat) (in_111 : Nat) (x : Nat) : Nat :=
  (lnot (lnot (x &&& toType Tin (in_111 &&& 0x5555555555555555))) <<< 0) +
  (lnot (lnot (x &&& toType Tin (in_111 &&& 0x6666666666666666))) <<< 1) +
  (lnot (lnot (x &&& toType Tin (in_111 &&& 0x7878787878787878))) <<< 2) +
  (lnot (lnot (x &&& toType Tin (in_111 &&& 0x7f807f807f807f80))) <<< 3) +
  (lnot (lnot (x &&& toType Tin (in_111 &&& 0x7fff80007fff8000))) <<< 4) +
  (lnot (lnot (x &&& toType Tin (in_111 &&& 0x7fffffff80000000))) <<< 5) +
  (lnot (lnot (x &&& toType Tin (in_111 &&& 0x8000000000000000))) <<< 6)

/-- Macro `___locate_bit_branchless(x, Tin, Tout, in_111)`. -/
def ___locate_bit_branchless (Tin : Nat) (Tout : IntType) (in_111 : Nat) (x : Nat) : Int :=
  Tout.cast (locate_sum Tin in_111 x : Nat)

/-- Macro `__locate_bit_branchless(x, Tin, Tout)`; `(Tin) ~(Tin)0` is the all-ones
value of `Tin`. -/
def __locate_bit_branchless (Tin : Nat) (Tout : IntType) (x : Nat) : Int :=
  ___locate_bit_branchless Tin Tout (toType Tin (bnot Tin 0)) x

/-! ## Generated functions -/

/-- The function defined by `gen_fls_branchless(fn_name, in_type, out_type,
start_from)`, with `in_type` given by `sizeof(in_type)`. The subtraction is done
in the promoted type and the `return` converts to `out_type`. -/
def gen_fls_branchless (in_type : Nat) (out_type : IntType) (start_from : Nat) (x : Nat) : Int :=
  let x := __preserve_msb_branchless in_type (toType in_type x)
  out_type.cast
    (__locate_bit_branchless in_type out_type x - ((lnot start_from &&& lnot x : Nat) : Int))

/-- The function defined by `gen_ffs_branchless(fn_name, in_type, out_type,
start_from)`. -/
def gen_ffs_branchless (in_type : Nat) (out_type : IntType) (start_from : Nat) (x : Nat) : Int :=
  let x := __preserve_lsb_branchless in_type (toType in_type x)
  out_type.cast
    (__locate_bit_branchless in_type out_type x - ((land2 (lnot start_from) (lnot x) : Nat) : Int))

/-- The function defined by `gen_clz_branchless(fn_name, in_type, out_type,
nonzero_exception)`. The subtraction is done in `size_t`, of `size_t_bits`
bits, and the `return` converts to `out_type`. -/
def gen_clz_branchless (size_t_bits : Nat) (in_type : Nat) (out_type : IntType)
    (nonzero_exception : Nat) (x : Nat) : Int :=
  let _temp_fls := gen_fls_branchless in_type out_type 1
  out_type.cast
    ((((in_type * (lnot (lnot nonzero_exception) * 8) : Nat) : Int) - _temp_fls x)
      % 2 ^ size_t_bits)

/-- The function defined by `gen_flz_branchless(fn_name, in_type, out_type,
start_from)`: the private `fls` instance applied to `~x`, which the call
converts to `in_type`. -/
def gen_flz_branchless (in_type : Nat) (out_type : IntType) (start_from : Nat) (x : Nat) : Int :=
  let _temp_fls := gen_fls_branchless in_type out_type start_from
  _temp_fls (bnot in_type x)

/-- The function defined by `gen_ffz_branchless(fn_name, in_type, out_type,
start_from)`: the private `ffs` instance applied to `~x`. -/
def gen_ffz_branchless (in_type : Nat) (out_type : IntType) (start_from : Nat) (x : Nat) : Int :=
  let _temp_ffs := gen_ffs_branchless in_type out_type start_from
  _temp_ffs (bnot in_type x)

/-- The function defined by `gen_ctz_branchless(fn_name, in_type, out_type,
nonzero_exception)`. The parameter `x` is of `in_type`; the subtraction is done
in the promoted type and the `return` converts to `out_type`. -/
def gen_ctz_branchless (in_type : Nat) (out_type : IntType) (nonzero_exception : Nat)
    (x : Nat) : Int :=
  let _temp_ffs := gen_ffs_branchless in_type out_type 1
  let x := toType in_type x
  out_type.cast (_temp_ffs x - ((land2 (lnot nonzero_exception) x : Nat) : Int))

/-- The shift amounts of the six OR-with-shift steps of both cascades, as
written in `___preserve_msb_branchless` and `___preserve_lsb_branchless`. -/
def shiftAmounts (x_size : Nat) : List Nat :=
  [1, 2, 4, cgt x_size 1 <<< 3, cgt x_size 2 <<< 4, cgt x_size 4 <<< 5]

/-! ## Positions of set bits -/

/-- Index `k` is that of the highest set bit of `x`. -/
def IsHighestSetBit (x k : Nat) : Prop :=
  x.testBit k = true ∧ ∀ i, k < i → x.testBit i = false

/-- Index `j` is that of the lowest set bit of `x`. -/
def IsLowestSetBit (x j : Nat) : Prop :=
  x.testBit j = true ∧ ∀ i, i < j → x.testBit i = false

/-- Index `k` is that of the highest unset bit of `x` among the bits `0..w-1`. -/
def IsHighestUnsetBit (w x k : Nat) : Prop :=
  k < w ∧ x.testBit k = false ∧ ∀ i, k < i → i < w → x.testBit i = true

/-- Index `j` is that of the lowest unset bit of `x` among the bits `0..w-1`. -/
def IsLowestUnsetBit (w x j : Nat) : Prop :=
  j < w ∧ x.testBit j = false ∧ ∀ i, i < j → x.testBit i = true

/-- The listed unsigned types: 1, 2, 4 or 8 bytes (8, 16, 32 or 64 bits). -/
def IsSize (x_size : Nat) : Prop := x_size = 1 ∨ x_size = 2 ∨ x_size = 4 ∨ x_size = 8

instance (x_size : Nat) : Decidable (IsSize x_size) := by
  unfold IsSize; infer_instance

/-! ## The shift cascades on their own -/

/-- The six OR-with-right-shift steps of `___preserve_msb_branchless`. -/
def fillRight (x_size : Nat) (X : Nat) : Nat :=
  let X := X ||| (X >>> 1)
  let X := X ||| (X >>> 2)
  let X := X ||| (X >>> 4)
  let X := X ||| (X >>> (cgt x_size 1 <<< 3))
  let X := X ||| (X >>> (cgt x_size 2 <<< 4))
  X ||| (X >>> (cgt x_size 4 <<< 5))

/-- The six OR-with-left-shift steps of `___preserve_lsb_branchless`. -/
def fillLeft (x_size : Nat) (X : Nat) : Nat :=
  let X := toType x_size (X ||| (X <<< 1))
  let X := toType x_size (X ||| (X <<< 2))
  let X := toType x_size (X ||| (X <<< 4))
  let X := toType x_size (X ||| (X <<< (cgt x_size 1 <<< 3)))
  let X := toType x_size (X ||| (X <<< (cgt x_size 2 <<< 4)))
  toType x_size (X ||| (X <<< (cgt x_size 4 <<< 5)))

/-! ## Auxiliary facts -/

theorem lnot_lnot_of_ne {a : Nat} (h : a ≠ 0) : lnot (lnot a) = 1 := by
  simp [lnot, h]

theorem lnot_lnot_zero : lnot (lnot 0) = 0 := by
  simp [lnot]

theorem bitsOf_cases {x_size : Nat} (hs : IsSize x_size) :
    bitsOf x_size = 8 ∨ bitsOf x_size = 16 ∨ bitsOf x_size = 32 ∨ bitsOf x_size = 64 := by
  rcases hs with rfl | rfl | rfl | rfl <;> simp [bitsOf]

theorem highest_bounds {x k : Nat} (h : IsHighestSetBit x k) : 2 ^ k ≤ x ∧ x < 2 ^ (k + 1) :=
  ⟨Nat.testBit_implies_ge h.1, Nat.lt_pow_two_of_testBit x fun i hi => h.2 i hi⟩

theorem highest_lt {x k w : Nat} (h : IsHighestSetBit x k) (hx : x < 2 ^ w) : k < w := by
  have h1 := (highest_bounds h).1
  exact (Nat.pow_lt_pow_iff_right (by norm_num : 1 < 2)).1 (lt_of_le_of_lt h1 hx)

theorem exists_highest {x : Nat} (hx : x ≠ 0) : ∃ k, IsHighestSetBit x k := by
  obtain ⟨m, hm⟩ := Nat.ne_zero_implies_bit_true hx
  have hmx : m ≤ x := by
    have h1 : 2 ^ m ≤ x := Nat.testBit_implies_ge hm
    exact le_trans (Nat.lt_two_pow m).le h1
  refine ⟨Nat.findGreatest (fun i => x.testBit i = true) x, ?_, ?_⟩
  · exact Nat.findGreatest_spec (P := fun i => x.testBit i = true) hmx hm
  · intro i hi
    by_cases hix : i ≤ x
    · have := Nat.findGreatest_is_greatest (P := fun i => x.testBit i = true) hi hix
      simpa using this
    · apply Nat.testBit_lt_two_pow
      exact lt_trans (Nat.lt_of_not_le hix) (Nat.lt_two_pow i)

theorem exists_lowest {x : Nat} (hx : x ≠ 0) : ∃ j, IsLowestSetBit x j := by
  have hex : ∃ i, x.testBit i = true := Nat.ne_zero_implies_bit_true hx
  refine ⟨Nat.find hex, Nat.find_spec hex, ?_⟩
  intro i hi
  have := Nat.find_min hex hi
  simpa using this

theorem lowest_lt {x j w : Nat} (h : IsLowestSetBit x j) (hx : x < 2 ^ w) : j < w := by
  have h1 : 2 ^ j ≤ x := Nat.testBit_implies_ge h.1
  exact (Nat.pow_lt_pow_iff_right (by norm_num : 1 < 2)).1 (lt_of_le_of_lt h1 hx)

/-! ### The right-shift cascade -/

theorem fill_right_step {y X n s : Nat}
    (h : ∀ i, X.testBit i = true ↔ ∃ j, j < n ∧ y.testBit (i + j) = true) (hs : s ≤ n) :
    ∀ i, (X ||| (X >>> s)).testBit i = true ↔ ∃ j, j < n + s ∧ y.testBit (i + j) = true := by
  intro i
  simp only [Nat.testBit_or, Nat.testBit_shiftRight, Bool.or_eq_true, h]
  constructor
  · rintro (⟨j, hj, hb⟩ | ⟨j, hj, hb⟩)
    · exact ⟨j, by omega, hb⟩
    · exact ⟨s + j, by omega, by rwa [show i + (s + j) = s + i + j by omega]⟩
  · rintro ⟨j, hj, hb⟩
    by_cases hjn : j < n
    · exact Or.inl ⟨j, hjn, hb⟩
    · exact Or.inr ⟨j - s, by omega, by rwa [show s + i + (j - s) = i + j by omega]⟩

theorem preserve_msb_eq (x_size X : Nat) :
    ___preserve_msb_branchless x_size X
      = toType x_size (fillRight x_size (X >>> 1) + lnot (lnot X)) := rfl

theorem fillRight_testBit {x_size : Nat} (hs : IsSize x_size) (y : Nat) :
    ∀ i, (fillRight x_size y).testBit i = true ↔
      ∃ j, j < bitsOf x_size ∧ y.testBit (i + j) = true := by
  have h0 : ∀ i, y.testBit i = true ↔ ∃ j, j < 1 ∧ y.testBit (i + j) = true := by
    intro i
    constructor
    · intro h; exact ⟨0, by decide, h⟩
    · rintro ⟨j, hj, hb⟩
      obtain rfl : j = 0 := by omega
      exact hb
  have h3 := fill_right_step (fill_right_step (fill_right_step h0 (s := 1) (by decide))
    (s := 2) (by decide)) (s := 4) (by decide)
  rcases hs with rfl | rfl | rfl | rfl
  · exact fill_right_step (fill_right_step (fill_right_step h3 (s := 0) (by decide))
      (s := 0) (by decide)) (s := 0) (by decide)
  · exact fill_right_step (fill_right_step (fill_right_step h3 (s := 8) (by decide))
      (s := 0) (by decide)) (s := 0) (by decide)
  · exact fill_right_step (fill_right_step (fill_right_step h3 (s := 8) (by decide))
      (s := 16) (by decide)) (s := 0) (by decide)
  · exact fill_right_step (fill_right_step (fill_right_step h3 (s := 8) (by decide))
      (s := 16) (by decide)) (s := 32) (by decide)

theorem fillRight_of_highest {x_size x k : Nat} (hs : IsSize x_size)
    (hx : x < 2 ^ bitsOf x_size) (hk : IsHighestSetBit x k) :
    fillRight x_size (x >>> 1) = 2 ^ k - 1 := by
  have hkw : k < bitsOf x_size := highest_lt hk hx
  apply Nat.eq_of_testBit_eq
  intro i
  rw [Nat.testBit_two_pow_sub_one, Bool.eq_iff_iff, fillRight_testBit hs, decide_eq_true_iff]
  constructor
  · rintro ⟨j, _, hb⟩
    rw [Nat.testBit_shiftRight] at hb
    by_contra hik
    have := hk.2 (1 + (i + j)) (by omega)
    rw [this] at hb
    exact Bool.false_ne_true hb
  · intro hik
    refine ⟨k - 1 - i, by omega, ?_⟩
    rw [Nat.testBit_shiftRight, show 1 + (i + (k - 1 - i)) = k by omega]
    exact hk.1

theorem preserve_msb_of_highest {x_size x k : Nat} (hs : IsSize x_size)
    (hx : x < 2 ^ bitsOf x_size) (hk : IsHighestSetBit x k) :
    ___preserve_msb_branchless x_size x = 2 ^ k := by
  have hkw : k < bitsOf x_size := highest_lt hk hx
  have hx0 : x ≠ 0 := by
    rintro rfl
    simpa using hk.1
  have hpos : 0 < 2 ^ k := Nat.two_pow_pos k
  rw [preserve_msb_eq, fillRight_of_highest hs hx hk, lnot_lnot_of_ne hx0, toType,
    Nat.sub_add_cancel hpos]
  exact Nat.mod_eq_of_lt (Nat.pow_lt_pow_right (by norm_num) hkw)

theorem preserve_msb_zero (x_size : Nat) : ___preserve_msb_branchless x_size 0 = 0 := by
  simp [preserve_msb_eq, fillRight, lnot_lnot_zero, toType]

/-! ### The left-shift cascade -/

theorem fill_left_step {x_size x X n s : Nat}
    (h : ∀ i, X.testBit i = true ↔
      i < bitsOf x_size ∧ ∃ j, j < n ∧ j ≤ i ∧ x.testBit (i - j) = true)
    (hs : s ≤ n) :
    ∀ i, (toType x_size (X ||| (X <<< s))).testBit i = true ↔
      i < bitsOf x_size ∧ ∃ j, j < n + s ∧ j ≤ i ∧ x.testBit (i - j) = true := by
  intro i
  simp only [toType, Nat.testBit_mod_two_pow, Nat.testBit_or, Nat.testBit_shiftLeft,
    Bool.and_eq_true, Bool.or_eq_true, decide_eq_true_iff, h]
  constructor
  · rintro ⟨hi, ⟨_, j, hj, hji, hb⟩ | ⟨hsi, _, j, hj, hji, hb⟩⟩
    · exact ⟨hi, j, by omega, hji, hb⟩
    · exact ⟨hi, j + s, by omega, by omega, by rwa [show i - (j + s) = i - s - j by omega]⟩
  · rintro ⟨hi, j, hj, hji, hb⟩
    refine ⟨hi, ?_⟩
    by_cases hjn : j < n
    · exact Or.inl ⟨hi, j, hjn, hji, hb⟩
    · exact Or.inr ⟨by omega, by omega, j - s, by omega, by omega,
        by rwa [show i - s - (j - s) = i - j by omega]⟩

theorem preserve_lsb_eq (x_size X : Nat) :
    ___preserve_lsb_branchless x_size X
      = toType x_size (bnot x_size (fillLeft x_size X) + lnot (lnot (fillLeft x_size X)))
        &&& fillLeft x_size X := rfl

theorem fillLeft_testBit {x_size : Nat} (hs : IsSize x_size) {x : Nat}
    (hx : x < 2 ^ bitsOf x_size) :
    ∀ i, (fillLeft x_size x).testBit i = true ↔
      i < bitsOf x_size ∧ ∃ j, j < bitsOf x_size ∧ j ≤ i ∧ x.testBit (i - j) = true := by
  have h0 : ∀ i, x.testBit i = true ↔
      i < bitsOf x_size ∧ ∃ j, j < 1 ∧ j ≤ i ∧ x.testBit (i - j) = true := by
    intro i
    constructor
    · intro h
      refine ⟨?_, 0, by decide, Nat.zero_le i, h⟩
      by_contra hi
      have := Nat.testBit_lt_two_pow
        (lt_of_lt_of_le hx (Nat.pow_le_pow_right (by norm_num) (Nat.le_of_not_lt hi)))
      rw [this] at h
      exact Bool.false_ne_true h
    · rintro ⟨_, j, hj, _, hb⟩
      obtain rfl : j = 0 := by omega
      exact hb
  have h3 := fill_left_step (fill_left_step (fill_left_step h0 (s := 1) (by decide))
    (s := 2) (by decide)) (s := 4) (by decide)
  rcases hs with rfl | rfl | rfl | rfl
  · exact fill_left_step (fill_left_step (fill_left_step h3 (s := 0) (by decide))
      (s := 0) (by decide)) (s := 0) (by decide)
  · exact fill_left_step (fill_left_step (fill_left_step h3 (s := 8) (by decide))
      (s := 0) (by decide)) (s := 0) (by decide)
  · exact fill_left_step (fill_left_step (fill_left_step h3 (s := 8) (by decide))
      (s := 16) (by decide)) (s := 0) (by decide)
  · exact fill_left_step (fill_left_step (fill_left_step h3 (s := 8) (by decide))
      (s := 16) (by decide)) (s := 32) (by decide)

theorem fillLeft_of_lowest {x_size x j : Nat} (hs : IsSize x_size)
    (hx : x < 2 ^ bitsOf x_size) (hj : IsLowestSetBit x j) :
    ∀ i, (fillLeft x_size x).testBit i = (decide (i < bitsOf x_size) && decide (j ≤ i)) := by
  intro i
  rw [Bool.eq_iff_iff, fillLeft_testBit hs hx]
  simp only [Bool.and_eq_true, decide_eq_true_iff]
  constructor
  · rintro ⟨hi, m, _, hmi, hb⟩
    refine ⟨hi, ?_⟩
    by_contra hji
    have := hj.2 (i - m) (by omega)
    rw [this] at hb
    exact Bool.false_ne_true hb
  · rintro ⟨hi, hji⟩
    exact ⟨hi, i - j, by omega, by omega, by rw [show i - (i - j) = j by omega]; exact hj.1⟩

theorem fillLeft_zero (x_size : Nat) : fillLeft x_size 0 = 0 := by
  simp [fillLeft, toType]

theorem preserve_lsb_of_lowest {x_size x j : Nat} (hs : IsSize x_size)
    (hx : x < 2 ^ bitsOf x_size) (hj : IsLowestSetBit x j) :
    ___preserve_lsb_branchless x_size x = 2 ^ j := by
  have hjw : j < bitsOf x_size := lowest_lt hj hx
  have hU := fillLeft_of_lowest hs hx hj
  have hUlt : fillLeft x_size x < 2 ^ bitsOf x_size := by
    apply Nat.lt_pow_two_of_testBit
    intro i hi
    rw [hU]
    simp only [Bool.and_eq_false_imp, decide_eq_true_iff]
    intro h
    omega
  have hU0 : fillLeft x_size x ≠ 0 := by
    intro h0
    have := hU j
    rw [h0] at this
    simp [hjw] at this
  have hnot : bnot x_size (fillLeft x_size x) = 2 ^ j - 1 := by
    apply Nat.eq_of_testBit_eq
    intro i
    rw [bnot, Nat.mod_eq_of_lt hUlt, Nat.sub_sub, Nat.add_comm 1,
      Nat.testBit_two_pow_sub_succ hUlt, hU, Nat.testBit_two_pow_sub_one, Bool.eq_iff_iff]
    simp only [Bool.and_eq_true, decide_eq_true_iff, Bool.not_eq_true', Bool.and_eq_false_imp,
      decide_eq_false_iff_not]
    constructor
    · rintro ⟨hi, h⟩
      have := h hi
      omega
    · intro h
      exact ⟨by omega, fun _ => by omega⟩
  rw [preserve_lsb_eq, hnot, lnot_lnot_of_ne hU0, Nat.sub_add_cancel (Nat.two_pow_pos j), toType,
    Nat.mod_eq_of_lt (Nat.pow_lt_pow_right (by norm_num) hjw)]
  apply Nat.eq_of_testBit_eq
  intro i
  rw [Nat.testBit_and, hU, Nat.testBit_two_pow, Bool.eq_iff_iff]
  simp only [Bool.and_eq_true, decide_eq_true_iff]
  constructor
  · rintro ⟨h, _⟩; exact h
  · intro h; exact ⟨h, by omega, by omega⟩

theorem preserve_lsb_zero (x_size : Nat) : ___preserve_lsb_branchless x_size 0 = 0 := by
  rw [preserve_lsb_eq, fillLeft_zero, Nat.and_zero]

/-! ### Conversion to the output type and the locator -/

theorem cast_of_canHold {T : IntType} {n v : Nat} (h : T.canHold n) (hn : 0 < n)
    (hv : v ≤ n) : T.cast (v : Int) = (v : Int) := by
  unfold IntType.canHold IntType.maxVal at h
  unfold IntType.cast
  cases hsg : T.isSigned
  · simp only [hsg, Bool.false_eq_true, if_false] at h ⊢
    apply Int.emod_eq_of_lt <;> omega
  · simp only [hsg, if_true] at h ⊢
    rcases Nat.eq_zero_or_pos T.bits with hb | hb
    · rw [hb] at h
      simp at h
      omega
    · have h2 : (2 : Int) ^ T.bits = 2 * 2 ^ (T.bits - 1) := by
        rw [← pow_succ', Nat.sub_add_cancel hb]
      have hp : (0 : Int) < 2 ^ (T.bits - 1) := by positivity
      rw [Int.emod_eq_of_lt (by omega) (by omega)]
      omega

theorem bitsOf_pos {x_size : Nat} (hs : IsSize x_size) : 0 < bitsOf x_size := by
  rcases bitsOf_cases hs with h | h | h | h <;> omega

theorem locate_sum_two_pow {x_size : Nat} (hs : IsSize x_size) :
    ∀ i, i < bitsOf x_size →
      locate_sum x_size (toType x_size (bnot x_size 0)) (2 ^ i) = i + 1 := by
  rcases hs with rfl | rfl | rfl | rfl <;> decide

theorem locate_sum_zero (x_size in_111 : Nat) : locate_sum x_size in_111 0 = 0 := by
  simp [locate_sum, lnot]

theorem locate_two_pow {x_size : Nat} (hs : IsSize x_size) {Tout : IntType}
    (hT : Tout.canHold (bitsOf x_size)) {i : Nat} (hi : i < bitsOf x_size) :
    __locate_bit_branchless x_size Tout (2 ^ i) = (i : Int) + 1 := by
  unfold __locate_bit_branchless ___locate_bit_branchless
  rw [locate_sum_two_pow hs i hi, cast_of_canHold hT (bitsOf_pos hs) (by omega)]
  push_cast
  rfl

theorem locate_zero {x_size : Nat} (hs : IsSize x_size) {Tout : IntType}
    (hT : Tout.canHold (bitsOf x_size)) :
    __locate_bit_branchless x_size Tout 0 = 0 := by
  unfold __locate_bit_branchless ___locate_bit_branchless
  rw [locate_sum_zero]
  exact cast_of_canHold (v := 0) hT (bitsOf_pos hs) (Nat.zero_le _)

theorem toType_of_lt {x_size x : Nat} (hx : x < 2 ^ bitsOf x_size) : toType x_size x = x :=
  Nat.mod_eq_of_lt hx

theorem lnot_two_pow (k : Nat) : lnot (2 ^ k) = 0 := by
  simp [lnot]

/-- On a nonzero input the `fls` function returns the 1-based position of the
highest set bit, whatever `start_from` is. -/
theorem fls_of_highest {in_type : Nat} (hs : IsSize in_type) {out_type : IntType}
    (hT : out_type.canHold (bitsOf in_type)) (start_from : Nat) {x k : Nat}
    (hx : x < 2 ^ bitsOf in_type) (hk : IsHighestSetBit x k) :
    gen_fls_branchless in_type out_type start_from x = (k : Int) + 1 := by
  have hkw : k < bitsOf in_type := highest_lt hk hx
  unfold gen_fls_branchless __preserve_msb_branchless
  simp only [toType_of_lt hx, preserve_msb_of_highest hs hx hk, locate_two_pow hs hT hkw,
    lnot_two_pow, Nat.and_zero, Nat.cast_zero, sub_zero]
  have := cast_of_canHold (v := k + 1) hT (bitsOf_pos hs) (by omega)
  push_cast at this
  exact this

/-- On a nonzero input the `ffs` function returns the 1-based position of the
lowest set bit, whatever `start_from` is. -/
theorem ffs_of_lowest {in_type : Nat} (hs : IsSize in_type) {out_type : IntType}
    (hT : out_type.canHold (bitsOf in_type)) (start_from : Nat) {x j : Nat}
    (hx : x < 2 ^ bitsOf in_type) (hj : IsLowestSetBit x j) :
    gen_ffs_branchless in_type out_type start_from x = (j : Int) + 1 := by
  have hjw : j < bitsOf in_type := lowest_lt hj hx
  have hl : ∀ a, land2 a 0 = 0 := by intro a; simp [land2]
  unfold gen_ffs_branchless __preserve_lsb_branchless
  simp only [toType_of_lt hx, preserve_lsb_of_lowest hs hx hj, locate_two_pow hs hT hjw,
    lnot_two_pow, hl, Nat.cast_zero, sub_zero]
  have := cast_of_canHold (v := j + 1) hT (bitsOf_pos hs) (by omega)
  push_cast at this
  exact this

/-- On input `0` the `fls` function returns `0 - !start_from` in `out_type`. -/
theorem fls_zero {in_type : Nat} (hs : IsSize in_type) {out_type : IntType}
    (hT : out_type.canHold (bitsOf in_type)) (start_from : Nat) :
    gen_fls_branchless in_type out_type start_from 0
      = out_type.cast (-((lnot start_from : Nat) : Int)) := by
  have h1 : ∀ a, lnot a &&& 1 = lnot a := by
    intro a; unfold lnot; split <;> rfl
  unfold gen_fls_branchless __preserve_msb_branchless
  simp only [toType, Nat.zero_mod, preserve_msb_zero, locate_zero hs hT, zero_sub]
  rw [show lnot 0 = 1 from rfl, h1]

/-- On input `0` the `ffs` function returns `0 - !start_from` in `out_type`. -/
theorem ffs_zero {in_type : Nat} (hs : IsSize in_type) {out_type : IntType}
    (hT : out_type.canHold (bitsOf in_type)) (start_from : Nat) :
    gen_ffs_branchless in_type out_type start_from 0
      = out_type.cast (-((lnot start_from : Nat) : Int)) := by
  have h1 : ∀ a, land2 (lnot a) 1 = lnot a := by
    intro a; unfold lnot land2; split <;> simp
  unfold gen_ffs_branchless __preserve_lsb_branchless
  simp only [toType, Nat.zero_mod, preserve_lsb_zero, locate_zero hs hT, zero_sub]
  rw [show lnot 0 = 1 from rfl, h1]

theorem highest_two_pow (k : Nat) : IsHighestSetBit (2 ^ k) k :=
  ⟨Nat.testBit_two_pow_self, fun _ hi => Nat.testBit_two_pow_of_ne (Nat.ne_of_lt hi)⟩

theorem lowest_two_pow (j : Nat) : IsLowestSetBit (2 ^ j) j :=
  ⟨Nat.testBit_two_pow_self, fun _ hi => Nat.testBit_two_pow_of_ne (Nat.ne_of_gt hi)⟩

theorem highest_all_ones {w : Nat} (hw : 0 < w) : IsHighestSetBit (2 ^ w - 1) (w - 1) := by
  constructor
  · rw [Nat.testBit_two_pow_sub_one]; simp; omega
  · intro i hi
    rw [Nat.testBit_two_pow_sub_one]; simp; omega

theorem lowest_all_ones {w : Nat} (hw : 0 < w) : IsLowestSetBit (2 ^ w - 1) 0 := by
  constructor
  · rw [Nat.testBit_two_pow_sub_one]; simpa using hw
  · intro i hi; omega

theorem all_ones_lt (w : Nat) : 2 ^ w - 1 < 2 ^ w :=
  Nat.sub_lt (Nat.two_pow_pos w) (by decide)

theorem two_pow_lt_of_size {x_size : Nat} (hs : IsSize x_size) {k : Nat} (hk : k < 8) :
    2 ^ k < 2 ^ bitsOf x_size := by
  apply Nat.pow_lt_pow_right (by norm_num)
  rcases bitsOf_cases hs with h | h | h | h <;> omega

theorem canHold_mono {T : IntType} {n m : Nat} (h : T.canHold n) (hm : m ≤ n) : T.canHold m := by
  unfold IntType.canHold at h ⊢
  omega

/-- With `nonzero_exception = 1` the `clz` function is the width minus what the
private 1-based `fls` returns. -/
theorem clz_of_fls {size_t_bits : Nat} (hsz : size_t_bits = 32 ∨ size_t_bits = 64)
    {in_type : Nat} (hs : IsSize in_type) {out_type : IntType}
    (hT : out_type.canHold (bitsOf in_type)) {x f : Nat}
    (hf : gen_fls_branchless in_type out_type 1 x = (f : Int)) (hfw : f ≤ bitsOf in_type) :
    gen_clz_branchless size_t_bits in_type out_type 1 x = ((bitsOf in_type - f : Nat) : Int) := by
  have hw : in_type * (lnot (lnot 1) * 8) = bitsOf in_type := by
    rw [show lnot (lnot 1) = 1 from rfl, bitsOf]; omega
  have hle : bitsOf in_type ≤ 64 := by
    rcases bitsOf_cases hs with h | h | h | h <;> omega
  unfold gen_clz_branchless
  simp only [hw, hf]
  have h1 : ((bitsOf in_type : Nat) : Int) - (f : Int) = ((bitsOf in_type - f : Nat) : Int) := by
    omega
  rw [h1]
  have h2 : ((bitsOf in_type - f : Nat) : Int) % 2 ^ size_t_bits
      = ((bitsOf in_type - f : Nat) : Int) := by
    apply Int.emod_eq_of_lt (by omega)
    rcases hsz with rfl | rfl <;> norm_num <;> omega
  rw [h2]
  exact cast_of_canHold hT (bitsOf_pos hs) (Nat.sub_le _ _)

/-- Every integer type of at least 8 bits, signed or not, can represent `0..64`. -/
theorem canHold_of_eight_le {T : IntType} (h : 8 ≤ T.bits) : T.canHold 64 := by
  unfold IntType.canHold IntType.maxVal
  have h7 : (2 : Int) ^ 7 ≤ 2 ^ (T.bits - 1) :=
    pow_le_pow_right₀ (by norm_num) (by omega)
  have h8 : (2 : Int) ^ 7 ≤ 2 ^ T.bits :=
    pow_le_pow_right₀ (by norm_num) (by omega)
  split <;> norm_num at h7 h8 ⊢ <;> omega

theorem cast_zero_of_canHold {T : IntType} {n : Nat} (h : T.canHold n) (hn : 0 < n) :
    T.cast 0 = 0 := by
  simpa using cast_of_canHold (v := 0) h hn (Nat.zero_le n)

theorem fls_one_zero {in_type : Nat} (hs : IsSize in_type) {out_type : IntType}
    (hT : out_type.canHold (bitsOf in_type)) :
    gen_fls_branchless in_type out_type 1 0 = 0 := by
  rw [fls_zero hs hT 1, show lnot 1 = 0 from rfl]
  simpa using cast_zero_of_canHold hT (bitsOf_pos hs)

theorem ffs_one_zero {in_type : Nat} (hs : IsSize in_type) {out_type : IntType}
    (hT : out_type.canHold (bitsOf in_type)) :
    gen_ffs_branchless in_type out_type 1 0 = 0 := by
  rw [ffs_zero hs hT 1, show lnot 1 = 0 from rfl]
  simpa using cast_zero_of_canHold hT (bitsOf_pos hs)

theorem size_one : IsSize 1 := Or.inl rfl

theorem canHold_eight {in_type : Nat} (hs : IsSize in_type) {out_type : IntType}
    (hT : out_type.canHold (bitsOf in_type)) : out_type.canHold (bitsOf 1) := by
  apply canHold_mono hT
  rcases bitsOf_cases hs with h | h | h | h <;> simp [bitsOf] at h ⊢ <;> omega

/-! ## The bit isolators: what they leave in `X` -/

/-- C1: for every width `8 * x_size` in {8, 16, 32, 64} and every value `x` of
that width, `__preserve_msb_branchless` (and
`rounddown_pow_of_two_inplace_branchless`, which expands to it) leaves `0` when
`x` was `0`, and otherwise exactly `2 ^ k` for `k` the index of the highest set
bit of `x`, which is the largest power of two not exceeding `x`. -/
theorem preserve_msb_branchless_spec (x_size : Nat) (hs : IsSize x_size) (x : Nat)
    (hx : x < 2 ^ bitsOf x_size) :
    (x = 0 → __preserve_msb_branchless x_size x = 0) ∧
    (x ≠ 0 → ∃ k, IsHighestSetBit x k ∧ __preserve_msb_branchless x_size x = 2 ^ k ∧
      2 ^ k ≤ x ∧ ∀ m, 2 ^ m ≤ x → 2 ^ m ≤ 2 ^ k) ∧
    rounddown_pow_of_two_inplace_branchless x_size x = __preserve_msb_branchless x_size x := by
  refine ⟨?_, ?_, rfl⟩
  · rintro rfl
    exact preserve_msb_zero x_size
  · intro hx0
    obtain ⟨k, hk⟩ := exists_highest hx0
    refine ⟨k, hk, preserve_msb_of_highest hs hx hk, (highest_bounds hk).1, ?_⟩
    intro m hm
    apply Nat.pow_le_pow_right (by norm_num)
    have hlt : 2 ^ m < 2 ^ (k + 1) := lt_of_le_of_lt hm (highest_bounds hk).2
    have := (Nat.pow_lt_pow_iff_right (by norm_num : 1 < 2)).1 hlt
    omega

/-- Instance of C1 at the 32-bit value `0x5a00`. -/
theorem preserve_msb_branchless_spec_witness :
    IsSize 4 ∧ 0x5a00 < 2 ^ bitsOf 4 ∧
      ∃ k, IsHighestSetBit 0x5a00 k ∧ __preserve_msb_branchless 4 0x5a00 = 2 ^ k :=
  ⟨by decide, by decide,
    let ⟨k, h1, h2, _⟩ :=
      (preserve_msb_branchless_spec 4 (by decide) 0x5a00 (by decide)).2.1 (by decide)
    ⟨k, h1, h2⟩⟩

/-- C2: for every width `8 * x_size` in {8, 16, 32, 64} and every value `x` of
that width, `__preserve_lsb_branchless` leaves `0` when `x` was `0`, and
otherwise exactly `2 ^ j` for `j` the index of the lowest set bit of `x`; the
left shifts and the complement-plus-one step are taken modulo `2 ^ (8 * x_size)`. -/
theorem preserve_lsb_branchless_spec (x_size : Nat) (hs : IsSize x_size) (x : Nat)
    (hx : x < 2 ^ bitsOf x_size) :
    (x = 0 → __preserve_lsb_branchless x_size x = 0) ∧
    (x ≠ 0 → ∃ j, IsLowestSetBit x j ∧ __preserve_lsb_branchless x_size x = 2 ^ j) := by
  constructor
  · rintro rfl
    exact preserve_lsb_zero x_size
  · intro hx0
    obtain ⟨j, hj⟩ := exists_lowest hx0
    exact ⟨j, hj, preserve_lsb_of_lowest hs hx hj⟩

/-- Instance of C2 at the 16-bit value `0x5a00`. -/
theorem preserve_lsb_branchless_spec_witness :
    IsSize 2 ∧ 0x5a00 < 2 ^ bitsOf 2 ∧
      ∃ j, IsLowestSetBit 0x5a00 j ∧ __preserve_lsb_branchless 2 0x5a00 = 2 ^ j :=
  ⟨by decide, by decide,
    (preserve_lsb_branchless_spec 2 (by decide) 0x5a00 (by decide)).2 (by decide)⟩

/-! ## The bit locator: 1-based digits -/

/-- C3, as stated, fails: on the 64-bit input `1`, whose only set bit is at
position `0`, `__locate_bit_branchless` returns `1` and not `0`; on `2 ^ 63` it
returns `64` and not `63`. -/
theorem locate_bit_not_zero_based :
    __locate_bit_branchless 8 ⟨32, true⟩ 1 = 1 ∧
    __locate_bit_branchless 8 ⟨32, true⟩ 1 ≠ 0 ∧
    __locate_bit_branchless 8 ⟨32, true⟩ (2 ^ 63) = 64 ∧
    __locate_bit_branchless 8 ⟨32, true⟩ (2 ^ 63) ≠ 63 := by
  decide

/-- C3, amended: for a 64-bit input type and an output type that can represent
`0..64`, on every `x` with exactly one bit set, at position `i < 64`,
`__locate_bit_branchless` returns `i + 1`, the 1-based digit of that bit; on `0`
it returns `0`. -/
theorem locate_bit_single_bit_64 (Tout : IntType) (hT : Tout.canHold 64) :
    (∀ x i : Nat, i < 64 → x.testBit i = true → (∀ j : Nat, j ≠ i → x.testBit j = false) →
      __locate_bit_branchless 8 Tout x = (i : Int) + 1) ∧
    __locate_bit_branchless 8 Tout 0 = 0 := by
  have hs : IsSize 8 := by decide
  refine ⟨?_, locate_zero hs hT⟩
  intro x i hi hb ho
  have hxi : x = 2 ^ i := by
    apply Nat.eq_of_testBit_eq
    intro m
    rw [Nat.testBit_two_pow]
    by_cases hmi : m = i
    · subst hmi; simpa using hb
    · rw [ho m hmi]
      simp only [false_eq_decide_iff]
      exact fun h => hmi h.symm
  rw [hxi]
  exact locate_two_pow hs hT hi

/-- Instance of the amended C3 at `2 ^ 40` with output type `unsigned char`. -/
theorem locate_bit_single_bit_64_witness :
    (⟨8, false⟩ : IntType).canHold 64 ∧ __locate_bit_branchless 8 ⟨8, false⟩ (2 ^ 40) = 41 :=
  ⟨by decide,
    (locate_bit_single_bit_64 ⟨8, false⟩ (by decide)).1 (2 ^ 40) 40 (by decide)
      Nat.testBit_two_pow_self (fun _ hj => Nat.testBit_two_pow_of_ne (Ne.symm hj))⟩

/-- C4: for every input width `8 * x_size` in {8, 16, 32, 64} and every output
type that can represent `0..8 * x_size`, `__locate_bit_branchless` returns
`i + 1` on the value `2 ^ i` for every `i` below the width, and `0` on `0`. -/
theorem locate_bit_branchless_one_based (x_size : Nat) (hs : IsSize x_size) (Tout : IntType)
    (hT : Tout.canHold (bitsOf x_size)) :
    (∀ i, i < bitsOf x_size → __locate_bit_branchless x_size Tout (2 ^ i) = (i : Int) + 1) ∧
    __locate_bit_branchless x_size Tout 0 = 0 :=
  ⟨fun _ hi => locate_two_pow hs hT hi, locate_zero hs hT⟩

/-- Instance of C4 at the 16-bit value `2 ^ 15` with output type `signed char`. -/
theorem locate_bit_branchless_one_based_witness :
    IsSize 2 ∧ (⟨8, true⟩ : IntType).canHold (bitsOf 2) ∧
      __locate_bit_branchless 2 ⟨8, true⟩ (2 ^ 15) = 16 ∧
      __locate_bit_branchless 2 ⟨8, true⟩ 0 = 0 :=
  ⟨by decide, by decide,
    (locate_bit_branchless_one_based 2 (by decide) ⟨8, true⟩ (by decide)).1 15 (by decide),
    (locate_bit_branchless_one_based 2 (by decide) ⟨8, true⟩ (by decide)).2⟩

/-! ## The generated `fls` and `ffs` functions -/

/-- C5: for every width `8 * in_type` in {8, 16, 32, 64} (and an output type
that can represent `0..8 * in_type`, as every C integer type of at least 8 bits
does), the function generated by `gen_fls_branchless` with `start_from = 1`
returns `0` on `0` and `k + 1` on a nonzero `x` whose most significant set bit
has index `k`; it returns the width on the all-bits-set input, `1` on `1` and
`8` on the 8-bit input `0x80`. -/
theorem gen_fls_branchless_start_from_one (in_type : Nat) (hs : IsSize in_type)
    (out_type : IntType) (hT : out_type.canHold (bitsOf in_type)) (x : Nat)
    (hx : x < 2 ^ bitsOf in_type) :
    (x = 0 → gen_fls_branchless in_type out_type 1 x = 0) ∧
    (x ≠ 0 → ∃ k : Nat, IsHighestSetBit x k ∧
      gen_fls_branchless in_type out_type 1 x = (k : Int) + 1) ∧
    gen_fls_branchless in_type out_type 1 (2 ^ bitsOf in_type - 1) = (bitsOf in_type : Int) ∧
    gen_fls_branchless in_type out_type 1 1 = 1 ∧
    gen_fls_branchless 1 out_type 1 0x80 = 8 := by
  refine ⟨?_, ?_, ?_, ?_, ?_⟩
  · rintro rfl
    exact fls_one_zero hs hT
  · intro hx0
    obtain ⟨k, hk⟩ := exists_highest hx0
    exact ⟨k, hk, fls_of_highest hs hT 1 hx hk⟩
  · have hw := bitsOf_pos hs
    rw [fls_of_highest hs hT 1 (all_ones_lt _) (highest_all_ones hw)]
    omega
  · have := fls_of_highest hs hT 1 (two_pow_lt_of_size hs (k := 0) (by decide))
      (highest_two_pow 0)
    simpa using this
  · have := fls_of_highest size_one (canHold_eight hs hT) 1
      (two_pow_lt_of_size size_one (k := 7) (by decide)) (highest_two_pow 7)
    simpa using this

/-- Instance of C5 at the 32-bit value `0x00f00000` with output type `int`. -/
theorem gen_fls_branchless_start_from_one_witness :
    IsSize 4 ∧ (⟨32, true⟩ : IntType).canHold (bitsOf 4) ∧ 0x00f00000 < 2 ^ bitsOf 4 ∧
      (∃ k : Nat, IsHighestSetBit 0x00f00000 k ∧
        gen_fls_branchless 4 ⟨32, true⟩ 1 0x00f00000 = (k : Int) + 1) ∧
      gen_fls_branchless 4 ⟨32, true⟩ 1 (2 ^ bitsOf 4 - 1) = (bitsOf 4 : Int) :=
  ⟨by decide, by decide, by decide,
    (gen_fls_branchless_start_from_one 4 (by decide) ⟨32, true⟩ (by decide) 0x00f00000
      (by decide)).2.1 (by decide),
    (gen_fls_branchless_start_from_one 4 (by decide) ⟨32, true⟩ (by decide) 0x00f00000
      (by decide)).2.2.1⟩

/-- C6: for every width `8 * in_type` in {8, 16, 32, 64} (and an output type
that can represent `0..8 * in_type`), the function generated by
`gen_ffs_branchless` with `start_from = 1` returns `0` on `0` and `j + 1` on a
nonzero `x` whose least significant set bit has index `j`; it returns `1` on
the all-bits-set input and `4` on `0b1000`. -/
theorem gen_ffs_branchless_start_from_one (in_type : Nat) (hs : IsSize in_type)
    (out_type : IntType) (hT : out_type.canHold (bitsOf in_type)) (x : Nat)
    (hx : x < 2 ^ bitsOf in_type) :
    (x = 0 → gen_ffs_branchless in_type out_type 1 x = 0) ∧
    (x ≠ 0 → ∃ j : Nat, IsLowestSetBit x j ∧
      gen_ffs_branchless in_type out_type 1 x = (j : Int) + 1) ∧
    gen_ffs_branchless in_type out_type 1 (2 ^ bitsOf in_type - 1) = 1 ∧
    gen_ffs_branchless in_type out_type 1 0b1000 = 4 := by
  refine ⟨?_, ?_, ?_, ?_⟩
  · rintro rfl
    exact ffs_one_zero hs hT
  · intro hx0
    obtain ⟨j, hj⟩ := exists_lowest hx0
    exact ⟨j, hj, ffs_of_lowest hs hT 1 hx hj⟩
  · have hw := bitsOf_pos hs
    rw [ffs_of_lowest hs hT 1 (all_ones_lt _) (lowest_all_ones hw)]
    simp
  · have := ffs_of_lowest hs hT 1 (two_pow_lt_of_size hs (k := 3) (by decide))
      (lowest_two_pow 3)
    simpa using this

/-- Instance of C6 at the 64-bit value `0x00f00000` with output type `unsigned char`. -/
theorem gen_ffs_branchless_start_from_one_witness :
    IsSize 8 ∧ (⟨8, false⟩ : IntType).canHold (bitsOf 8) ∧ 0x00f00000 < 2 ^ bitsOf 8 ∧
      (∃ j : Nat, IsLowestSetBit 0x00f00000 j ∧
        gen_ffs_branchless 8 ⟨8, false⟩ 1 0x00f00000 = (j : Int) + 1) ∧
      gen_ffs_branchless 8 ⟨8, false⟩ 1 0b1000 = 4 :=
  ⟨by decide, by decide, by decide,
    (gen_ffs_branchless_start_from_one 8 (by decide) ⟨8, false⟩ (by decide) 0x00f00000
      (by decide)).2.1 (by decide),
    (gen_ffs_branchless_start_from_one 8 (by decide) ⟨8, false⟩ (by decide) 0x00f00000
      (by decide)).2.2.2⟩

/-- C7, on the code: with `start_from = 0` the function generated by
`gen_fls_branchless` returns `1` on the input `1` at each of the four widths
and `8` on the 8-bit input `0x80`, the 1-based positions, where the 0-based
indices are `0` and `7`. -/
theorem gen_fls_branchless_start_from_zero_eval :
    gen_fls_branchless 1 ⟨32, true⟩ 0 1 = 1 ∧
    gen_fls_branchless 2 ⟨32, true⟩ 0 1 = 1 ∧
    gen_fls_branchless 4 ⟨32, true⟩ 0 1 = 1 ∧
    gen_fls_branchless 8 ⟨32, true⟩ 0 1 = 1 ∧
    gen_fls_branchless 1 ⟨32, true⟩ 0 0x80 = 8 := by
  decide

/-- C8, on the code: with `start_from = 0` the function generated by
`gen_ffs_branchless` returns `1` on the input `1` and `4` on the input `0b1000`
at each of the four widths, the 1-based positions, where the 0-based indices
are `0` and `3`. -/
theorem gen_ffs_branchless_start_from_zero_eval :
    gen_ffs_branchless 1 ⟨32, true⟩ 0 1 = 1 ∧
    gen_ffs_branchless 2 ⟨32, true⟩ 0 1 = 1 ∧
    gen_ffs_branchless 4 ⟨32, true⟩ 0 1 = 1 ∧
    gen_ffs_branchless 8 ⟨32, true⟩ 0 1 = 1 ∧
    gen_ffs_branchless 1 ⟨32, true⟩ 0 0b1000 = 4 ∧
    gen_ffs_branchless 2 ⟨32, true⟩ 0 0b1000 = 4 ∧
    gen_ffs_branchless 4 ⟨32, true⟩ 0 0b1000 = 4 ∧
    gen_ffs_branchless 8 ⟨32, true⟩ 0 0b1000 = 4 := by
  decide

/-- C9, on the code: on the input `0` with `start_from = 0` the functions
generated by `gen_fls_branchless` and `gen_ffs_branchless` return `-1` for the
output type `int` and `2 ^ 32 - 1` for `unsigned int`, not `0`; with
`start_from = 1` they return `0`. -/
theorem gen_fls_ffs_branchless_zero_input_eval :
    gen_fls_branchless 4 ⟨32, true⟩ 0 0 = -1 ∧
    gen_ffs_branchless 4 ⟨32, true⟩ 0 0 = -1 ∧
    gen_fls_branchless 4 ⟨32, false⟩ 0 0 = 4294967295 ∧
    gen_ffs_branchless 4 ⟨32, false⟩ 0 0 = 4294967295 ∧
    gen_fls_branchless 1 ⟨32, true⟩ 0 0 = -1 ∧
    gen_ffs_branchless 8 ⟨32, true⟩ 0 0 = -1 ∧
    gen_fls_branchless 4 ⟨32, true⟩ 1 0 = 0 ∧
    gen_ffs_branchless 4 ⟨32, true⟩ 1 0 = 0 := by
  decide

/-! ## The generated `clz` function -/

/-- C10: for every width `8 * in_type` in {8, 16, 32, 64} and every output type
that can represent `0..8 * in_type` (with `size_t` of 32 or 64 bits), the
function generated by `gen_clz_branchless` with `nonzero_exception = 1` returns
the number of leading zero bits of `x`: the width when `x = 0`, and
`width - 1 - k` when the most significant set bit of `x` has index `k`; at
width 32 that is `32` on `0` and `31` on `1`. -/
theorem gen_clz_branchless_nonzero_exception (size_t_bits : Nat)
    (hsz : size_t_bits = 32 ∨ size_t_bits = 64) (in_type : Nat) (hs : IsSize in_type)
    (out_type : IntType) (hT : out_type.canHold (bitsOf in_type)) (x : Nat)
    (hx : x < 2 ^ bitsOf in_type) :
    (x = 0 → gen_clz_branchless size_t_bits in_type out_type 1 x = (bitsOf in_type : Int)) ∧
    (x ≠ 0 → ∃ k : Nat, IsHighestSetBit x k ∧ k < bitsOf in_type ∧
      gen_clz_branchless size_t_bits in_type out_type 1 x
        = (bitsOf in_type : Int) - 1 - (k : Int)) ∧
    (in_type = 4 → gen_clz_branchless size_t_bits 4 out_type 1 0 = 32 ∧
      gen_clz_branchless size_t_bits 4 out_type 1 1 = 31) := by
  refine ⟨?_, ?_, ?_⟩
  · rintro rfl
    have := clz_of_fls hsz hs hT (x := 0) (f := 0) (by simpa using fls_one_zero hs hT)
      (Nat.zero_le _)
    simpa using this
  · intro hx0
    obtain ⟨k, hk⟩ := exists_highest hx0
    have hkw : k < bitsOf in_type := highest_lt hk hx
    refine ⟨k, hk, hkw, ?_⟩
    rw [clz_of_fls hsz hs hT (x := x) (f := k + 1)
      (by push_cast; exact fls_of_highest hs hT 1 hx hk) hkw]
    omega
  · rintro rfl
    constructor
    · have := clz_of_fls hsz hs hT (x := 0) (f := 0) (by simpa using fls_one_zero hs hT)
        (Nat.zero_le _)
      simpa [bitsOf] using this
    · have h1 := fls_of_highest hs hT 1 (two_pow_lt_of_size hs (k := 0) (by decide))
        (highest_two_pow 0)
      have := clz_of_fls hsz hs hT (x := 1) (f := 1) (by simpa using h1) (by decide)
      simpa [bitsOf] using this

/-- Instance of C10 at the 32-bit value `0x00f00000` with output type `int`. -/
theorem gen_clz_branchless_nonzero_exception_witness :
    (64 = 32 ∨ 64 = 64) ∧ IsSize 4 ∧ (⟨32, true⟩ : IntType).canHold (bitsOf 4) ∧
      0x00f00000 < 2 ^ bitsOf 4 ∧
      (∃ k : Nat, IsHighestSetBit 0x00f00000 k ∧ k < bitsOf 4 ∧
        gen_clz_branchless 64 4 ⟨32, true⟩ 1 0x00f00000 = (bitsOf 4 : Int) - 1 - (k : Int)) ∧
      gen_clz_branchless 64 4 ⟨32, true⟩ 1 0 = 32 ∧
      gen_clz_branchless 64 4 ⟨32, true⟩ 1 1 = 31 :=
  ⟨by decide, by decide, by decide, by decide,
    (gen_clz_branchless_nonzero_exception 64 (by decide) 4 (by decide) ⟨32, true⟩ (by decide)
      0x00f00000 (by decide)).2.1 (by decide),
    (gen_clz_branchless_nonzero_exception 64 (by decide) 4 (by decide) ⟨32, true⟩ (by decide)
      0x00f00000 (by decide)).2.2 rfl⟩

/-! ## Auxiliary facts on the complement and on `-1` in the output type -/

theorem testBit_bnot {x_size x : Nat} (hx : x < 2 ^ bitsOf x_size) (i : Nat) :
    (bnot x_size x).testBit i = (decide (i < bitsOf x_size) && !x.testBit i) := by
  rw [bnot, Nat.mod_eq_of_lt hx, Nat.sub_sub, Nat.add_comm 1,
    Nat.testBit_two_pow_sub_succ hx]

theorem bnot_lt (x_size x : Nat) : bnot x_size x < 2 ^ bitsOf x_size := by
  have := Nat.two_pow_pos (bitsOf x_size)
  unfold bnot
  omega

theorem bnot_all_ones (x_size : Nat) : bnot x_size (2 ^ bitsOf x_size - 1) = 0 := by
  unfold bnot
  rw [Nat.mod_eq_of_lt (all_ones_lt _)]
  omega

theorem bnot_ne_zero {x_size x : Nat} (hx : x < 2 ^ bitsOf x_size)
    (hne : x ≠ 2 ^ bitsOf x_size - 1) : bnot x_size x ≠ 0 := by
  unfold bnot
  rw [Nat.mod_eq_of_lt hx]
  omega

theorem highest_unset_of_bnot {x_size x k : Nat} (hx : x < 2 ^ bitsOf x_size)
    (h : IsHighestSetBit (bnot x_size x) k) : IsHighestUnsetBit (bitsOf x_size) x k := by
  have hkw : k < bitsOf x_size := highest_lt h (bnot_lt x_size x)
  refine ⟨hkw, ?_, ?_⟩
  · have := h.1
    rw [testBit_bnot hx] at this
    simp only [Bool.and_eq_true, Bool.not_eq_true', decide_eq_true_iff] at this
    exact this.2
  · intro i hki hiw
    have := h.2 i hki
    rw [testBit_bnot hx] at this
    simpa [hiw] using this

theorem lowest_unset_of_bnot {x_size x j : Nat} (hx : x < 2 ^ bitsOf x_size)
    (h : IsLowestSetBit (bnot x_size x) j) : IsLowestUnsetBit (bitsOf x_size) x j := by
  have hjw : j < bitsOf x_size := lowest_lt h (bnot_lt x_size x)
  refine ⟨hjw, ?_, ?_⟩
  · have := h.1
    rw [testBit_bnot hx] at this
    simp only [Bool.and_eq_true, Bool.not_eq_true', decide_eq_true_iff] at this
    exact this.2
  · intro i hij
    have := h.2 i hij
    rw [testBit_bnot hx] at this
    have hiw : i < bitsOf x_size := lt_trans hij hjw
    simpa [hiw] using this

theorem bits_pos_of_canHold {T : IntType} {n : Nat} (h : T.canHold n) (hn : 1 < n) :
    0 < T.bits := by
  unfold IntType.canHold IntType.maxVal at h
  rcases Nat.eq_zero_or_pos T.bits with hb | hb
  · rw [hb] at h
    split at h <;> simp at h <;> omega
  · exact hb

theorem cast_neg_one_signed {T : IntType} (hb : 0 < T.bits) (hsg : T.isSigned = true) :
    T.cast (-1) = -1 := by
  unfold IntType.cast
  simp only [hsg, if_true]
  have h2 : (2 : Int) ^ T.bits = 2 * 2 ^ (T.bits - 1) := by
    rw [← pow_succ', Nat.sub_add_cancel hb]
  have hp : (0 : Int) < 2 ^ (T.bits - 1) := by positivity
  rw [Int.emod_eq_of_lt (by omega) (by omega)]
  omega

theorem cast_neg_one_unsigned {T : IntType} (hsg : T.isSigned = false) :
    T.cast (-1) = 2 ^ T.bits - 1 := by
  unfold IntType.cast
  simp only [hsg, Bool.false_eq_true, if_false]
  have hp : (0 : Int) < 2 ^ T.bits := by positivity
  rw [← Int.add_emod_self, Int.emod_eq_of_lt (by omega) (by omega)]
  omega

theorem one_lt_bitsOf {x_size : Nat} (hs : IsSize x_size) : 1 < bitsOf x_size := by
  rcases bitsOf_cases hs with h | h | h | h <;> omega

theorem size_eight : IsSize 8 := Or.inr (Or.inr (Or.inr rfl))

theorem lt_two_pow_64 {x_size x : Nat} (hs : IsSize x_size) (hx : x < 2 ^ bitsOf x_size) :
    x < 2 ^ bitsOf 8 := by
  apply lt_of_lt_of_le hx
  apply Nat.pow_le_pow_right (by norm_num)
  rcases bitsOf_cases hs with h | h | h | h <;> simp [bitsOf] at h ⊢ <;> omega

theorem canHold_of_64 {x_size : Nat} (hs : IsSize x_size) {T : IntType}
    (hT : T.canHold 64) : T.canHold (bitsOf x_size) := by
  apply canHold_mono hT
  rcases bitsOf_cases hs with h | h | h | h <;> omega

/-- With `nonzero_exception = 0` the `ctz` function on a nonzero input is what
the private 1-based `ffs` returns, minus one. -/
theorem ctz_zero_of_lowest {in_type : Nat} (hs : IsSize in_type) {out_type : IntType}
    (hT : out_type.canHold (bitsOf in_type)) {x j : Nat}
    (hx : x < 2 ^ bitsOf in_type) (hj : IsLowestSetBit x j) :
    gen_ctz_branchless in_type out_type 0 x = (j : Int) := by
  have hjw : j < bitsOf in_type := lowest_lt hj hx
  have hx0 : x ≠ 0 := by
    rintro rfl
    simpa using hj.1
  have hl : land2 (lnot 0) x = 1 := by simp [land2, lnot, hx0]
  unfold gen_ctz_branchless
  simp only [toType_of_lt hx, ffs_of_lowest hs hT 1 hx hj, hl]
  have := cast_of_canHold (v := j) hT (bitsOf_pos hs) (by omega)
  simpa using this

/-! ## The generated `clz` and `ctz` functions, other settings -/

/-- C11, on the code: with `nonzero_exception = 0` the function generated by
`gen_clz_branchless` returns `0 - fls(x)`: at width 32 it returns `-1` on the
input `1` for the output type `int` (`2 ^ 32 - 1` for `unsigned int`) and `-32`
on `0x80000000`, where the numbers of leading zero bits are `31` and `0`; on
the input `0` it returns `0`. -/
theorem gen_clz_branchless_no_exception_eval :
    gen_clz_branchless 64 4 ⟨32, true⟩ 0 1 = -1 ∧
    gen_clz_branchless 64 4 ⟨32, false⟩ 0 1 = 4294967295 ∧
    gen_clz_branchless 32 4 ⟨32, true⟩ 0 1 = -1 ∧
    gen_clz_branchless 64 4 ⟨32, true⟩ 0 0x80000000 = -32 ∧
    gen_clz_branchless 64 1 ⟨32, true⟩ 0 1 = -1 ∧
    gen_clz_branchless 64 4 ⟨32, true⟩ 0 0 = 0 := by
  decide

/-- C12, on the code: with `nonzero_exception = 1` the function generated by
`gen_ctz_branchless` returns what the 1-based `ffs` returns: at width 32 it
returns `0` on the input `0`, where the full width is `32`, and `4` on the
input `8` and `1` on the input `1`, where the numbers of trailing zero bits are
`3` and `0`. -/
theorem gen_ctz_branchless_nonzero_exception_eval :
    gen_ctz_branchless 4 ⟨32, true⟩ 1 0 = 0 ∧
    gen_ctz_branchless 4 ⟨32, true⟩ 1 8 = 4 ∧
    gen_ctz_branchless 4 ⟨32, true⟩ 1 1 = 1 ∧
    gen_ctz_branchless 1 ⟨32, true⟩ 1 0 = 0 ∧
    gen_ctz_branchless 8 ⟨32, true⟩ 1 0 = 0 := by
  decide

/-- C13: for every width `8 * in_type` in {8, 16, 32, 64} (and an output type
that can represent `0..8 * in_type`), the function generated by
`gen_ctz_branchless` with `nonzero_exception = 0` returns `0` on `0` and, on a
nonzero `x`, the index `j` of its least significant set bit, the number of
trailing zero bits; it returns `3` on the input `8`. -/
theorem gen_ctz_branchless_no_exception (in_type : Nat) (hs : IsSize in_type)
    (out_type : IntType) (hT : out_type.canHold (bitsOf in_type)) (x : Nat)
    (hx : x < 2 ^ bitsOf in_type) :
    (x = 0 → gen_ctz_branchless in_type out_type 0 x = 0) ∧
    (x ≠ 0 → ∃ j : Nat, IsLowestSetBit x j ∧
      gen_ctz_branchless in_type out_type 0 x = (j : Int)) ∧
    gen_ctz_branchless in_type out_type 0 8 = 3 := by
  refine ⟨?_, ?_, ?_⟩
  · rintro rfl
    have hl : land2 (lnot 0) 0 = 0 := rfl
    unfold gen_ctz_branchless
    simp only [toType, Nat.zero_mod, hl]
    simpa [ffs_one_zero hs hT] using cast_zero_of_canHold hT (bitsOf_pos hs)
  · intro hx0
    obtain ⟨j, hj⟩ := exists_lowest hx0
    exact ⟨j, hj, ctz_zero_of_lowest hs hT hx hj⟩
  · have := ctz_zero_of_lowest hs hT (two_pow_lt_of_size hs (k := 3) (by decide))
      (lowest_two_pow 3)
    simpa using this

/-- Instance of C13 at the 16-bit value `0x5a00` with output type `int`. -/
theorem gen_ctz_branchless_no_exception_witness :
    IsSize 2 ∧ (⟨32, true⟩ : IntType).canHold (bitsOf 2) ∧ 0x5a00 < 2 ^ bitsOf 2 ∧
      (∃ j : Nat, IsLowestSetBit 0x5a00 j ∧
        gen_ctz_branchless 2 ⟨32, true⟩ 0 0x5a00 = (j : Int)) ∧
      gen_ctz_branchless 2 ⟨32, true⟩ 0 8 = 3 :=
  ⟨by decide, by decide, by decide,
    (gen_ctz_branchless_no_exception 2 (by decide) ⟨32, true⟩ (by decide) 0x5a00
      (by decide)).2.1 (by decide),
    (gen_ctz_branchless_no_exception 2 (by decide) ⟨32, true⟩ (by decide) 0x5a00
      (by decide)).2.2⟩

/-! ## The generated `flz` and `ffz` functions -/

/-- C14: for every width `8 * in_type` in {8, 16, 32, 64} (and an output type
that can represent `0..8 * in_type`), the function generated by
`gen_flz_branchless` with `start_from = 1` is the 1-based `fls` of the
complement taken within the width; it returns `0` when `x` has no unset bit
(`x = 2 ^ width - 1`) and otherwise `k + 1` for `k` the index of the most
significant unset bit of `x` among the bits below the width. -/
theorem gen_flz_branchless_start_from_one (in_type : Nat) (hs : IsSize in_type)
    (out_type : IntType) (hT : out_type.canHold (bitsOf in_type)) (x : Nat)
    (hx : x < 2 ^ bitsOf in_type) :
    gen_flz_branchless in_type out_type 1 x
      = gen_fls_branchless in_type out_type 1 (2 ^ bitsOf in_type - 1 - x) ∧
    (x = 2 ^ bitsOf in_type - 1 → gen_flz_branchless in_type out_type 1 x = 0) ∧
    (x ≠ 2 ^ bitsOf in_type - 1 → ∃ k : Nat, IsHighestUnsetBit (bitsOf in_type) x k ∧
      gen_flz_branchless in_type out_type 1 x = (k : Int) + 1) := by
  refine ⟨?_, ?_, ?_⟩
  · unfold gen_flz_branchless bnot
    rw [Nat.mod_eq_of_lt hx]
  · rintro rfl
    unfold gen_flz_branchless
    simp only [bnot_all_ones]
    exact fls_one_zero hs hT
  · intro hne
    obtain ⟨k, hk⟩ := exists_highest (bnot_ne_zero hx hne)
    exact ⟨k, highest_unset_of_bnot hx hk, fls_of_highest hs hT 1 (bnot_lt in_type x) hk⟩

/-- Instance of C14 at the 8-bit value `0xe5` with output type `int`. -/
theorem gen_flz_branchless_start_from_one_witness :
    IsSize 1 ∧ (⟨32, true⟩ : IntType).canHold (bitsOf 1) ∧ 0xe5 < 2 ^ bitsOf 1 ∧
      ∃ k : Nat, IsHighestUnsetBit (bitsOf 1) 0xe5 k ∧
        gen_flz_branchless 1 ⟨32, true⟩ 1 0xe5 = (k : Int) + 1 :=
  ⟨by decide, by decide, by decide,
    (gen_flz_branchless_start_from_one 1 (by decide) ⟨32, true⟩ (by decide) 0xe5
      (by decide)).2.2 (by decide)⟩

/-- C15: for every width `8 * in_type` in {8, 16, 32, 64} (and an output type
that can represent `0..8 * in_type`), the function generated by
`gen_ffz_branchless` with `start_from = 1` returns `0` when `x` has no unset
bit (`x = 2 ^ width - 1`) and otherwise `j + 1` for `j` the index of the least
significant unset bit of `x` among the bits below the width. -/
theorem gen_ffz_branchless_start_from_one (in_type : Nat) (hs : IsSize in_type)
    (out_type : IntType) (hT : out_type.canHold (bitsOf in_type)) (x : Nat)
    (hx : x < 2 ^ bitsOf in_type) :
    (x = 2 ^ bitsOf in_type - 1 → gen_ffz_branchless in_type out_type 1 x = 0) ∧
    (x ≠ 2 ^ bitsOf in_type - 1 → ∃ j : Nat, IsLowestUnsetBit (bitsOf in_type) x j ∧
      gen_ffz_branchless in_type out_type 1 x = (j : Int) + 1) := by
  refine ⟨?_, ?_⟩
  · rintro rfl
    unfold gen_ffz_branchless
    simp only [bnot_all_ones]
    exact ffs_one_zero hs hT
  · intro hne
    obtain ⟨j, hj⟩ := exists_lowest (bnot_ne_zero hx hne)
    exact ⟨j, lowest_unset_of_bnot hx hj, ffs_of_lowest hs hT 1 (bnot_lt in_type x) hj⟩

/-- Instance of C15 at the 8-bit value `0xe7` with output type `int`. -/
theorem gen_ffz_branchless_start_from_one_witness :
    IsSize 1 ∧ (⟨32, true⟩ : IntType).canHold (bitsOf 1) ∧ 0xe7 < 2 ^ bitsOf 1 ∧
      ∃ j : Nat, IsLowestUnsetBit (bitsOf 1) 0xe7 j ∧
        gen_ffz_branchless 1 ⟨32, true⟩ 1 0xe7 = (j : Int) + 1 :=
  ⟨by decide, by decide, by decide,
    (gen_ffz_branchless_start_from_one 1 (by decide) ⟨32, true⟩ (by decide) 0xe7
      (by decide)).2 (by decide)⟩

/-- C16, on the code: on the input `0` the function generated by
`gen_flz_branchless` returns the width (`8`, `16`, `32`, `64`) and the one
generated by `gen_ffz_branchless` returns `1`, for `start_from = 1` and for
`start_from = 0` alike, not `0`. -/
theorem gen_flz_ffz_branchless_zero_input_eval :
    gen_flz_branchless 1 ⟨32, true⟩ 1 0 = 8 ∧
    gen_flz_branchless 2 ⟨32, true⟩ 1 0 = 16 ∧
    gen_flz_branchless 4 ⟨32, true⟩ 1 0 = 32 ∧
    gen_flz_branchless 8 ⟨32, true⟩ 1 0 = 64 ∧
    gen_flz_branchless 4 ⟨32, true⟩ 0 0 = 32 ∧
    gen_ffz_branchless 1 ⟨32, true⟩ 1 0 = 1 ∧
    gen_ffz_branchless 2 ⟨32, true⟩ 1 0 = 1 ∧
    gen_ffz_branchless 4 ⟨32, true⟩ 1 0 = 1 ∧
    gen_ffz_branchless 8 ⟨32, true⟩ 1 0 = 1 ∧
    gen_ffz_branchless 4 ⟨32, true⟩ 0 0 = 1 := by
  decide

/-! ## Relations between the generated functions -/

/-- C17: for every width `8 * in_type` in {8, 16, 32, 64} (and an output type
that can represent `0..8 * in_type`) and every nonzero `x` of that width, with
`fls1` the function generated by `gen_fls_branchless` with `start_from = 1`,
`fls1(x)` is at least `1`, and `1 << (fls1(x) - 1)` equals what
`__preserve_msb_branchless` leaves for `x` and is at most `x`. -/
theorem fls_preserve_msb_round_trip (in_type : Nat) (hs : IsSize in_type)
    (out_type : IntType) (hT : out_type.canHold (bitsOf in_type)) (x : Nat)
    (hx : x < 2 ^ bitsOf in_type) (hx0 : x ≠ 0) :
    1 ≤ gen_fls_branchless in_type out_type 1 x ∧
    1 <<< (gen_fls_branchless in_type out_type 1 x - 1).toNat
      = __preserve_msb_branchless in_type x ∧
    1 <<< (gen_fls_branchless in_type out_type 1 x - 1).toNat ≤ x := by
  obtain ⟨k, hk⟩ := exists_highest hx0
  have hf := fls_of_highest hs hT 1 hx hk
  have hk' : (gen_fls_branchless in_type out_type 1 x - 1).toNat = k := by
    rw [hf]; simp
  rw [hk', Nat.one_shiftLeft]
  refine ⟨by rw [hf]; omega, ?_, (highest_bounds hk).1⟩
  exact (preserve_msb_of_highest hs hx hk).symm

/-- Instance of C17 at the 32-bit value `0x00f00000` with output type `int`. -/
theorem fls_preserve_msb_round_trip_witness :
    IsSize 4 ∧ (⟨32, true⟩ : IntType).canHold (bitsOf 4) ∧ 0x00f00000 < 2 ^ bitsOf 4 ∧
      0x00f00000 ≠ 0 ∧
      1 <<< (gen_fls_branchless 4 ⟨32, true⟩ 1 0x00f00000 - 1).toNat
        = __preserve_msb_branchless 4 0x00f00000 ∧
      1 <<< (gen_fls_branchless 4 ⟨32, true⟩ 1 0x00f00000 - 1).toNat ≤ 0x00f00000 :=
  ⟨by decide, by decide, by decide, by decide,
    (fls_preserve_msb_round_trip 4 (by decide) ⟨32, true⟩ (by decide) 0x00f00000 (by decide)
      (by decide)).2⟩

/-- C18: both cascades run over the six shift amounts `1, 2, 4, (x_size>1)<<3,
(x_size>2)<<4, (x_size>4)<<5`; for every type size `x_size` in {1, 2, 4, 8}
each of them is strictly less than the bit width `8 * x_size`, each step whose
nominal amount (8, 16 or 32) is at or beyond the width shifts by `0` (and by
the nominal amount otherwise), and a step that shifts by `0` leaves the value
unchanged. -/
theorem cascade_shift_amounts (x_size : Nat) (hs : IsSize x_size) :
    (∀ X, ___preserve_msb_branchless x_size X
      = toType x_size
          ((shiftAmounts x_size).foldl (fun X s => X ||| (X >>> s)) (X >>> 1)
            + lnot (lnot X))) ∧
    (∀ X, ___preserve_lsb_branchless x_size X
      = toType x_size
          (bnot x_size
              ((shiftAmounts x_size).foldl (fun X s => toType x_size (X ||| (X <<< s))) X)
            + lnot (lnot
              ((shiftAmounts x_size).foldl (fun X s => toType x_size (X ||| (X <<< s))) X)))
        &&& (shiftAmounts x_size).foldl (fun X s => toType x_size (X ||| (X <<< s))) X) ∧
    (∀ s ∈ shiftAmounts x_size, s < bitsOf x_size) ∧
    (cgt x_size 1 <<< 3 = if 8 < bitsOf x_size then 8 else 0) ∧
    (cgt x_size 2 <<< 4 = if 16 < bitsOf x_size then 16 else 0) ∧
    (cgt x_size 4 <<< 5 = if 32 < bitsOf x_size then 32 else 0) ∧
    (∀ X, X ||| (X >>> 0) = X) ∧
    (∀ X, X < 2 ^ bitsOf x_size → toType x_size (X ||| (X <<< 0)) = X) := by
  refine ⟨fun _ => rfl, fun _ => rfl, ?_, ?_, ?_, ?_, ?_, ?_⟩
  · rcases hs with rfl | rfl | rfl | rfl <;> decide
  · rcases hs with rfl | rfl | rfl | rfl <;> decide
  · rcases hs with rfl | rfl | rfl | rfl <;> decide
  · rcases hs with rfl | rfl | rfl | rfl <;> decide
  · intro X
    simp
  · intro X hX
    simpa using toType_of_lt hX

/-- Instance of C18 at the 2-byte types: the amounts are `1, 2, 4, 8, 0, 0`. -/
theorem cascade_shift_amounts_witness :
    IsSize 2 ∧ shiftAmounts 2 = [1, 2, 4, 8, 0, 0] ∧
      ∀ s ∈ shiftAmounts 2, s < bitsOf 2 :=
  ⟨by decide, by decide, (cascade_shift_amounts 2 (by decide)).2.2.1⟩

/-- C19: for every width `8 * in_type` in {8, 16, 32} and every `x` below
`2 ^ (8 * in_type)` (and an output type that can represent `0..64`), the `fls`
function generated with `start_from = 1` for that width returns on `x` what the
one generated for the 64-bit input type returns on `x`, and likewise `ffs`. -/
theorem fls_ffs_width_independent (in_type : Nat)
    (hs : in_type = 1 ∨ in_type = 2 ∨ in_type = 4) (out_type : IntType)
    (hT : out_type.canHold 64) (x : Nat) (hx : x < 2 ^ bitsOf in_type) :
    gen_fls_branchless in_type out_type 1 x = gen_fls_branchless 8 out_type 1 x ∧
    gen_ffs_branchless in_type out_type 1 x = gen_ffs_branchless 8 out_type 1 x := by
  have hs' : IsSize in_type := by
    rcases hs with h | h | h
    · exact Or.inl h
    · exact Or.inr (Or.inl h)
    · exact Or.inr (Or.inr (Or.inl h))
  have hT' := canHold_of_64 hs' hT
  have hT8 : out_type.canHold (bitsOf 8) := hT
  have hx8 := lt_two_pow_64 hs' hx
  by_cases hx0 : x = 0
  · subst hx0
    rw [fls_one_zero hs' hT', fls_one_zero size_eight hT8, ffs_one_zero hs' hT',
      ffs_one_zero size_eight hT8]
    exact ⟨rfl, rfl⟩
  · obtain ⟨k, hk⟩ := exists_highest hx0
    obtain ⟨j, hj⟩ := exists_lowest hx0
    rw [fls_of_highest hs' hT' 1 hx hk, fls_of_highest size_eight hT8 1 hx8 hk,
      ffs_of_lowest hs' hT' 1 hx hj, ffs_of_lowest size_eight hT8 1 hx8 hj]
    exact ⟨rfl, rfl⟩

/-- Instance of C19 at the 16-bit value `0x5a00` with output type `int`. -/
theorem fls_ffs_width_independent_witness :
    (2 = 1 ∨ 2 = 2 ∨ 2 = 4) ∧ (⟨32, true⟩ : IntType).canHold 64 ∧ 0x5a00 < 2 ^ bitsOf 2 ∧
      gen_fls_branchless 2 ⟨32, true⟩ 1 0x5a00 = gen_fls_branchless 8 ⟨32, true⟩ 1 0x5a00 ∧
      gen_ffs_branchless 2 ⟨32, true⟩ 1 0x5a00 = gen_ffs_branchless 8 ⟨32, true⟩ 1 0x5a00 :=
  ⟨by decide, by decide, by decide,
    fls_ffs_width_independent 2 (by decide) ⟨32, true⟩ (by decide) 0x5a00 (by decide)⟩

/-- C20: for every width `8 * in_type` in {8, 16, 32, 64} (and an output type
that can represent `0..8 * in_type`), on every nonzero `x` of that width the
function generated by `gen_fls_branchless` with `start_from = 0` returns what
the one generated with `start_from = 1` returns, and likewise for
`gen_ffs_branchless`; on the input `0` the `start_from = 0` functions return
the `start_from = 1` result minus one taken in the output type, which is `-1`
for a signed output type and `2 ^ bits - 1` (all bits set) for an unsigned one,
and so differs from the `start_from = 1` result `0`. -/
theorem fls_ffs_start_from_conventions (in_type : Nat) (hs : IsSize in_type)
    (out_type : IntType) (hT : out_type.canHold (bitsOf in_type)) :
    (∀ x : Nat, x < 2 ^ bitsOf in_type → x ≠ 0 →
      gen_fls_branchless in_type out_type 0 x = gen_fls_branchless in_type out_type 1 x ∧
      gen_ffs_branchless in_type out_type 0 x = gen_ffs_branchless in_type out_type 1 x) ∧
    gen_fls_branchless in_type out_type 0 0
      = out_type.cast (gen_fls_branchless in_type out_type 1 0 - 1) ∧
    gen_ffs_branchless in_type out_type 0 0
      = out_type.cast (gen_ffs_branchless in_type out_type 1 0 - 1) ∧
    (out_type.isSigned = true →
      gen_fls_branchless in_type out_type 0 0 = -1 ∧
      gen_ffs_branchless in_type out_type 0 0 = -1) ∧
    (out_type.isSigned = false →
      gen_fls_branchless in_type out_type 0 0 = 2 ^ out_type.bits - 1 ∧
      gen_ffs_branchless in_type out_type 0 0 = 2 ^ out_type.bits - 1) ∧
    gen_fls_branchless in_type out_type 0 0 ≠ gen_fls_branchless in_type out_type 1 0 ∧
    gen_ffs_branchless in_type out_type 0 0 ≠ gen_ffs_branchless in_type out_type 1 0 := by
  have hb : 0 < out_type.bits := bits_pos_of_canHold hT (one_lt_bitsOf hs)
  have hfls : gen_fls_branchless in_type out_type 0 0 = out_type.cast (-1) := by
    rw [fls_zero hs hT 0]; rfl
  have hffs : gen_ffs_branchless in_type out_type 0 0 = out_type.cast (-1) := by
    rw [ffs_zero hs hT 0]; rfl
  have hne : out_type.cast (-1) ≠ 0 := by
    cases hsg : out_type.isSigned
    · rw [cast_neg_one_unsigned hsg]
      have : (2 : Int) ^ 1 ≤ 2 ^ out_type.bits := pow_le_pow_right₀ (by norm_num) hb
      omega
    · rw [cast_neg_one_signed hb hsg]
      decide
  refine ⟨?_, ?_, ?_, ?_, ?_, ?_, ?_⟩
  · intro x hx hx0
    obtain ⟨k, hk⟩ := exists_highest hx0
    obtain ⟨j, hj⟩ := exists_lowest hx0
    rw [fls_of_highest hs hT 0 hx hk, fls_of_highest hs hT 1 hx hk,
      ffs_of_lowest hs hT 0 hx hj, ffs_of_lowest hs hT 1 hx hj]
    exact ⟨rfl, rfl⟩
  · rw [hfls, fls_one_zero hs hT]; rfl
  · rw [hffs, ffs_one_zero hs hT]; rfl
  · intro hsg
    rw [hfls, hffs, cast_neg_one_signed hb hsg]
    exact ⟨rfl, rfl⟩
  · intro hsg
    rw [hfls, hffs, cast_neg_one_unsigned hsg]
    exact ⟨rfl, rfl⟩
  · rw [hfls, fls_one_zero hs hT]; exact hne
  · rw [hffs, ffs_one_zero hs hT]; exact hne

/-- Instance of C20 at the 8-bit value `0x5a` with output type `int`. -/
theorem fls_ffs_start_from_conventions_witness :
    IsSize 1 ∧ (⟨32, true⟩ : IntType).canHold (bitsOf 1) ∧
      gen_fls_branchless 1 ⟨32, true⟩ 0 0x5a = gen_fls_branchless 1 ⟨32, true⟩ 1 0x5a ∧
      gen_ffs_branchless 1 ⟨32, true⟩ 0 0x5a = gen_ffs_branchless 1 ⟨32, true⟩ 1 0x5a ∧
      gen_fls_branchless 1 ⟨32, true⟩ 0 0 = -1 :=
  ⟨by decide, by decide,
    ((fls_ffs_start_from_conventions 1 (by decide) ⟨32, true⟩ (by decide)).1 0x5a (by decide)
      (by decide)).1,
    ((fls_ffs_start_from_conventions 1 (by decide) ⟨32, true⟩ (by decide)).1 0x5a (by decide)
      (by decide)).2,
    ((fls_ffs_start_from_conventions 1 (by decide) ⟨32, true⟩ (by decide)).2.2.2.1 rfl).1⟩

end GenFflsBranchless
